import Mathlib

/-!
Verification of the push-id generator and the SSE watch/listen machinery of
the `firebase` Go package, as a shallow embedding in Lean.

Conventions of the embedding:
* Go byte slices are `List Char` (all relevant data is ASCII/Latin-1).
* `time.Now().UTC().UnixNano() / 1e6` is passed in as an explicit `now : Nat`
  parameter, so the stateful generator becomes a pure state-passing function.
* Goroutine/channel behaviour is modelled as the (finite) list of values the
  goroutine sends on its channel, with an explicit `close` marker.
-/

namespace Firebase

/-! ## Push ID generator (id.go) -/

/-- Lexicographically ordered base-64 characters used in generated push ids,
from the Go constant of the same name. -/
def defaultPushIDChars : String :=
  "-0123456789ABCDEFGHIJKLMNOPQRSTUVWXYZ_abcdefghijklmnopqrstuvwxyz"

/-- Alphabet as a character list. -/
def pushChars : List Char := defaultPushIDChars.toList

/-- Character for a single base-64 digit (Go: `defaultPushIDChars[d]`;
indices used are always `< 64`, the default is never reached there). -/
def pushChar (d : Nat) : Char := pushChars.getD d ' '

/-- State of the push-id generator, from the Go struct `IDGen`.  The random
source and mutex are not part of the purely functional state; `last` is kept
little-endian: `last[0]` is the digit written to output position 19. -/
structure IDGen where
  stamp : Nat
  last : List Nat
  deriving Repr, DecidableEq

/-- Construction of a generator from the 12 draws `r.Intn(64)` of
`NewPushIDGenerator`; `stamp` starts at Go's zero value. -/
def newPushIDGenerator (draws : List Nat) : IDGen := ⟨0, draws⟩

/-- Carry-propagating increment of the entropy digits, from the loop
`for i... { ig.last[i]++; if ig.last[i] < 64 break; ig.last[i] = 0 }`. -/
def carryIncr : List Nat → List Nat
  | [] => []
  | d :: rest => if d + 1 < 64 then (d + 1) :: rest else 0 :: carryIncr rest

/-- Base-64 digits of the timestamp as written by the loop
`for i = 7; i >= 0; i-- { id[i] = chars[now % 64]; now /= 64 }`:
most significant digit first, `k` digits in total. -/
def pushTimeDigits : Nat → Nat → List Nat
  | 0, _ => []
  | k + 1, t => pushTimeDigits k (t / 64) ++ [t % 64]

/-- Entropy digits used for this call: incremented exactly when the previous
call happened in the same millisecond. -/
def genLast (ig : IDGen) (now : Nat) : List Nat :=
  if ig.stamp = now then carryIncr ig.last else ig.last

/-- One call of the method `(*IDGen) GeneratePushID`, with the observed
millisecond timestamp `now` as explicit input.  Returns the generated id and
the successor state. -/
def generatePushID (ig : IDGen) (now : Nat) : String × IDGen :=
  let last := genLast ig now
  (String.mk ((pushTimeDigits 8 now).map pushChar ++ last.reverse.map pushChar),
    ⟨now, last⟩)

/-- Sequence of ids generated by consecutive single-threaded calls at the
given observed timestamps. -/
def runGen : IDGen → List Nat → List String
  | _, [] => []
  | g, t :: ts => (generatePushID g t).1 :: runGen (generatePushID g t).2 ts

/-- The run never increments an all-63 entropy vector: at each call that
re-observes the previous timestamp, some digit is below 63 (no 72-bit
wrap-around). -/
def noWrapRun : IDGen → List Nat → Bool
  | _, [] => true
  | g, t :: ts =>
    (g.stamp != t || g.last.any (fun d => d != 63)) &&
      noWrapRun (generatePushID g t).2 ts

/-- Timestamp digits as the spec describes them: the `j`-th of the 8 output
characters is digit `now / 64 ^ (7 - j) % 64`, most significant first. -/
def specTimeDigits (t : Nat) : List Nat :=
  (List.range 8).map fun j => t / 64 ^ (7 - j) % 64

/-- Value of a most-significant-first base-64 digit string. -/
def decodeTime (l : List Nat) : Nat := l.foldl (fun acc d => acc * 64 + d) 0

/-- Numeric value of the little-endian entropy digits. -/
def val64 : List Nat → Nat
  | [] => 0
  | d :: rest => d + 64 * val64 rest

/-- An id emitted by `generatePushID` is fully determined by the state the
call leaves behind. -/
def idOfState (g : IDGen) : String :=
  String.mk ((pushTimeDigits 8 g.stamp).map pushChar ++ g.last.reverse.map pushChar)

/-! ## Order lemmas for the push-id alphabet and digit strings -/

theorem generatePushID_snd (g : IDGen) (t : Nat) :
    (generatePushID g t).2 = ⟨t, genLast g t⟩ := rfl

theorem generatePushID_fst (g : IDGen) (t : Nat) :
    (generatePushID g t).1 = idOfState (generatePushID g t).2 := rfl

theorem lex_append_of_length_eq {α : Type _} {r : α → α → Prop} :
    ∀ {l1 l2 : List α}, List.Lex r l1 l2 → l1.length = l2.length →
      ∀ s1 s2 : List α, List.Lex r (l1 ++ s1) (l2 ++ s2) := by
  intro l1 l2 hlex
  induction hlex with
  | nil => intro hlen; simp at hlen
  | @rel a l1 b l2 h => intro _ s1 s2; exact List.Lex.rel h
  | @cons a l1 l2 h ih =>
      intro hlen s1 s2
      exact List.Lex.cons (ih (by simpa using hlen) s1 s2)

theorem pushTimeDigits_length (k : Nat) : ∀ t, (pushTimeDigits k t).length = k := by
  induction k with
  | zero => intro t; rfl
  | succ k ih => intro t; simp [pushTimeDigits, ih]

theorem pushTimeDigits_lt_64 (k : Nat) : ∀ t, ∀ d ∈ pushTimeDigits k t, d < 64 := by
  induction k with
  | zero => intro t d hd; simp [pushTimeDigits] at hd
  | succ k ih =>
      intro t d hd
      simp only [pushTimeDigits, List.mem_append, List.mem_singleton] at hd
      rcases hd with h | h
      · exact ih _ _ h
      · omega

theorem pushTimeDigits_mono (k : Nat) : ∀ {t1 t2 : Nat}, t1 < t2 → t2 < 64 ^ k →
    List.Lex (· < ·) (pushTimeDigits k t1) (pushTimeDigits k t2) := by
  induction k with
  | zero => intro t1 t2 h hb; simp only [pow_zero] at hb; omega
  | succ k ih =>
      intro t1 t2 h hb
      have hq : t1 / 64 ≤ t2 / 64 := Nat.div_le_div_right (le_of_lt h)
      rcases Nat.lt_or_ge (t1 / 64) (t2 / 64) with hlt | hge
      · have hb' : t2 / 64 < 64 ^ k := by
          rw [Nat.div_lt_iff_lt_mul (by omega : 0 < 64)]
          calc t2 < 64 ^ (k + 1) := hb
            _ = 64 ^ k * 64 := pow_succ 64 k
        exact lex_append_of_length_eq (ih hlt hb')
          (by simp [pushTimeDigits_length]) _ _
      · have heq : t1 / 64 = t2 / 64 := le_antisymm hq hge
        show List.Lex (· < ·) (pushTimeDigits k (t1 / 64) ++ [t1 % 64])
          (pushTimeDigits k (t2 / 64) ++ [t2 % 64])
        rw [heq]
        exact List.Lex.append_left _ (List.Lex.rel (by omega)) _

theorem carryIncr_length : ∀ l : List Nat, (carryIncr l).length = l.length := by
  intro l
  induction l with
  | nil => rfl
  | cons d rest ih => by_cases h : d + 1 < 64 <;> simp [carryIncr, h, ih]

theorem carryIncr_lt_64 : ∀ l : List Nat, (∀ d ∈ l, d < 64) → ∀ d ∈ carryIncr l, d < 64 := by
  intro l
  induction l with
  | nil => intro _ d hd; simp [carryIncr] at hd
  | cons a rest ih =>
      intro h d hd
      by_cases hc : a + 1 < 64
      · simp only [carryIncr, if_pos hc, List.mem_cons] at hd
        rcases hd with h' | h'
        · omega
        · exact h d (List.mem_cons_of_mem _ h')
      · simp only [carryIncr, if_neg hc, List.mem_cons] at hd
        rcases hd with h' | h'
        · omega
        · exact ih (fun x hx => h x (List.mem_cons_of_mem _ hx)) d h'

theorem val64_lt : ∀ l : List Nat, (∀ d ∈ l, d < 64) → val64 l < 64 ^ l.length := by
  intro l
  induction l with
  | nil => intro _; simp [val64]
  | cons d rest ih =>
      intro h
      have hd : d < 64 := h d (List.mem_cons_self _ _)
      have hr : val64 rest < 64 ^ rest.length :=
        ih (fun x hx => h x (List.mem_cons_of_mem _ hx))
      show d + 64 * val64 rest < 64 ^ (rest.length + 1)
      calc d + 64 * val64 rest < 64 * (val64 rest + 1) := by omega
        _ ≤ 64 * 64 ^ rest.length := Nat.mul_le_mul_left _ hr
        _ = 64 ^ (rest.length + 1) := (pow_succ' 64 rest.length).symm

theorem carryIncr_val : ∀ l : List Nat, (∀ d ∈ l, d < 64) →
    val64 (carryIncr l) = (val64 l + 1) % 64 ^ l.length := by
  intro l
  induction l with
  | nil => intro _; simp [carryIncr, val64]
  | cons d rest ih =>
      intro h
      have hd : d < 64 := h d (List.mem_cons_self _ _)
      have hrest : ∀ x ∈ rest, x < 64 := fun x hx => h x (List.mem_cons_of_mem _ hx)
      have hr : val64 rest < 64 ^ rest.length := val64_lt rest hrest
      by_cases hc : d + 1 < 64
      · have hlt : val64 (d :: rest) + 1 < 64 ^ (d :: rest).length := by
          show d + 64 * val64 rest + 1 < 64 ^ (rest.length + 1)
          calc d + 64 * val64 rest + 1 < 64 * (val64 rest + 1) := by omega
            _ ≤ 64 * 64 ^ rest.length := Nat.mul_le_mul_left _ hr
            _ = 64 ^ (rest.length + 1) := (pow_succ' 64 rest.length).symm
        rw [Nat.mod_eq_of_lt hlt]
        have hstep : carryIncr (d :: rest) = (d + 1) :: rest := by
          simp [carryIncr, hc]
        rw [hstep]
        simp only [val64]
        omega
      · have hd63 : d = 63 := by omega
        subst hd63
        have hstep : carryIncr (63 :: rest) = 0 :: carryIncr rest := by
          simp [carryIncr]
        rw [hstep]
        show 0 + 64 * val64 (carryIncr rest) = (63 + 64 * val64 rest + 1) % 64 ^ (rest.length + 1)
        rw [ih hrest]
        have h1 : 63 + 64 * val64 rest + 1 = 64 * (val64 rest + 1) := by omega
        have h2 : (64 : Nat) ^ (rest.length + 1) = 64 * 64 ^ rest.length :=
          pow_succ' 64 rest.length
        rw [h1, h2, Nat.mul_mod_mul_left]
        omega

theorem carryIncr_lex : ∀ l : List Nat, (∀ d ∈ l, d < 64) → (∃ d ∈ l, d ≠ 63) →
    List.Lex (· < ·) l.reverse (carryIncr l).reverse := by
  intro l
  induction l with
  | nil => intro _ h; simp at h
  | cons d rest ih =>
      intro h64 hne
      by_cases hc : d + 1 < 64
      · simp only [carryIncr, if_pos hc, List.reverse_cons]
        exact List.Lex.append_left _ (List.Lex.rel (by omega)) _
      · have hd : d = 63 := by
          have := h64 d (List.mem_cons_self _ _)
          omega
        have hne' : ∃ x ∈ rest, x ≠ 63 := by
          rcases hne with ⟨x, hx, hxne⟩
          rcases List.mem_cons.mp hx with h' | h'
          · exact absurd (h' ▸ hd) hxne
          · exact ⟨x, h', hxne⟩
        have ihx := ih (fun x hx => h64 x (List.mem_cons_of_mem _ hx)) hne'
        simp only [carryIncr, if_neg hc, List.reverse_cons]
        exact lex_append_of_length_eq ihx (by simp [carryIncr_length]) _ _

theorem pushChar_mono : ∀ a, a < 64 → ∀ b, b < 64 → a < b → pushChar a < pushChar b := by
  decide

theorem pushChar_mem : ∀ d, d < 64 → pushChar d ∈ pushChars := by decide

theorem lex_map_pushChar : ∀ {l1 l2 : List Nat}, List.Lex (· < ·) l1 l2 →
    (∀ d ∈ l1, d < 64) → (∀ d ∈ l2, d < 64) →
    List.Lex (· < ·) (l1.map pushChar) (l2.map pushChar) := by
  intro l1 l2 hlex
  induction hlex with
  | @nil b l2 =>
      intro _ _
      simp only [List.map_nil, List.map_cons]
      exact List.Lex.nil
  | @rel a l1 b l2 h =>
      intro h1 h2
      simp only [List.map_cons]
      exact List.Lex.rel
        (pushChar_mono a (h1 a (List.mem_cons_self _ _)) b (h2 b (List.mem_cons_self _ _)) h)
  | @cons a l1 l2 h ih =>
      intro h1 h2
      simp only [List.map_cons]
      exact List.Lex.cons
        (ih (fun d hd => h1 d (List.mem_cons_of_mem _ hd))
          (fun d hd => h2 d (List.mem_cons_of_mem _ hd)))

theorem string_mk_lt {l1 l2 : List Char} (h : List.Lex (· < ·) l1 l2) :
    String.mk l1 < String.mk l2 := by
  rw [String.lt_iff_toList_lt]
  exact h

theorem genLast_lt_64 {g : IDGen} (t : Nat) (h64 : ∀ d ∈ g.last, d < 64) :
    ∀ d ∈ genLast g t, d < 64 := by
  unfold genLast
  split
  · exact carryIncr_lt_64 g.last h64
  · exact h64

theorem genLast_length {g : IDGen} (t : Nat) (hlen : g.last.length = 12) :
    (genLast g t).length = 12 := by
  unfold genLast
  split
  · rw [carryIncr_length]; exact hlen
  · exact hlen

/-- Core step property: the id recorded in a state is strictly below the id
generated by the next call, provided time does not step backwards, stays
below `64 ^ 8` ms, and a same-millisecond call does not meet an all-63
entropy vector. -/
theorem idOfState_lt_next (g : IDGen) (t2 : Nat)
    (h64 : ∀ d ∈ g.last, d < 64) (hst : g.stamp ≤ t2) (hb : t2 < 64 ^ 8)
    (hnw : g.stamp = t2 → ∃ d ∈ g.last, d ≠ 63) :
    idOfState g < idOfState (generatePushID g t2).2 := by
  rw [generatePushID_snd]
  unfold idOfState
  rcases eq_or_lt_of_le hst with heq | hlt
  · have hlast : genLast g t2 = carryIncr g.last := by
      unfold genLast
      rw [if_pos heq]
    apply string_mk_lt
    simp only [hlast, heq]
    apply List.Lex.append_left
    apply lex_map_pushChar (carryIncr_lex g.last h64 (hnw heq))
    · intro d hd
      exact h64 d (List.mem_reverse.mp hd)
    · intro d hd
      exact carryIncr_lt_64 g.last h64 d (List.mem_reverse.mp hd)
  · apply string_mk_lt
    apply lex_append_of_length_eq
    · apply lex_map_pushChar (pushTimeDigits_mono 8 hlt hb)
      · exact pushTimeDigits_lt_64 8 g.stamp
      · exact pushTimeDigits_lt_64 8 t2
    · simp [pushTimeDigits_length]

theorem noWrapRun_head {g : IDGen} {t : Nat} {ts : List Nat}
    (h : noWrapRun g (t :: ts) = true) :
    (g.stamp = t → ∃ d ∈ g.last, d ≠ 63) ∧ noWrapRun (generatePushID g t).2 ts = true := by
  simp only [noWrapRun, Bool.and_eq_true, Bool.or_eq_true, bne_iff_ne, ne_eq,
    List.any_eq_true, decide_eq_true_eq] at h
  obtain ⟨h1, h2⟩ := h
  refine ⟨?_, h2⟩
  intro hst
  rcases h1 with h1 | h1
  · exact absurd hst h1
  · obtain ⟨x, hx, hxne⟩ := h1
    exact ⟨x, hx, hxne⟩

theorem runGen_cons (g : IDGen) (t : Nat) (ts : List Nat) :
    runGen g (t :: ts) = (generatePushID g t).1 :: runGen (generatePushID g t).2 ts := rfl

theorem runGen_chain (ts : List Nat) : ∀ g : IDGen, (∀ d ∈ g.last, d < 64) →
    List.Chain' (· ≤ ·) ts → (∀ t ∈ ts, t < 64 ^ 8) → noWrapRun g ts = true →
    List.Chain' (· < ·) (runGen g ts) := by
  induction ts with
  | nil => intro g _ _ _ _; simp [runGen]
  | cons t1 rest ih =>
      intro g h64 hsort hb hnw
      have h64' : ∀ d ∈ (generatePushID g t1).2.last, d < 64 := by
        rw [generatePushID_snd]
        exact genLast_lt_64 t1 h64
      obtain ⟨_, hnw'⟩ := noWrapRun_head hnw
      rw [runGen_cons, List.chain'_cons']
      constructor
      · intro y hy
        cases rest with
        | nil => simp [runGen] at hy
        | cons t2 rest2 =>
            rw [runGen_cons] at hy
            simp only [List.head?_cons, Option.mem_some_iff] at hy
            subst hy
            rw [generatePushID_fst g t1, generatePushID_fst (generatePushID g t1).2 t2]
            apply idOfState_lt_next _ _ h64'
            · show t1 ≤ t2
              exact (List.chain'_cons.mp hsort).1
            · exact hb t2 (by simp)
            · exact (noWrapRun_head hnw').1
      · exact ih (generatePushID g t1).2 h64' hsort.tail
          (fun t ht => hb t (List.mem_cons_of_mem _ ht)) hnw'

/-- C1 (amended): for sequential single-threaded calls on one generator
whose observed millisecond timestamps are nondecreasing and below `64 ^ 8`,
and whose entropy vector is not all-63 at any call that re-observes the
previous timestamp (no 72-bit counter wrap), the generated identifiers are
strictly increasing under lexicographic string comparison, and hence
pairwise distinct. -/
theorem runGen_strictMono (g : IDGen) (ts : List Nat)
    (h64 : ∀ d ∈ g.last, d < 64) (hsort : List.Chain' (· ≤ ·) ts)
    (hb : ∀ t ∈ ts, t < 64 ^ 8) (hnw : noWrapRun g ts = true) :
    List.Chain' (· < ·) (runGen g ts) ∧ List.Pairwise (· ≠ ·) (runGen g ts) := by
  have hc := runGen_chain ts g h64 hsort hb hnw
  refine ⟨hc, ?_⟩
  exact (List.chain'_iff_pairwise.mp hc).imp fun h => ne_of_lt h

/-- C1 counterexample: a generator whose entropy digits are all 63 (a
possible draw of `NewPushIDGenerator`, and reachable by increments) violates
strict monotonicity on the second call within the same millisecond: the
12-digit counter wraps around to all zeros and the later id is smaller. -/
theorem runGen_wrap_counterexample :
    ¬ List.Chain' (· < ·)
      (runGen (newPushIDGenerator (List.replicate 12 63)) [5, 5]) := by
  intro h
  rw [runGen_cons, runGen_cons] at h
  have h1 := (List.chain'_cons.mp h).1
  rw [String.lt_iff_toList_lt] at h1
  exact absurd h1 (by decide)

/-- C1 witness for the amended theorem at a concrete generator and run. -/
theorem runGen_strictMono_witness :
    ((∀ d ∈ (newPushIDGenerator (List.replicate 12 1)).last, d < 64) ∧
      List.Chain' (· ≤ ·) [5, 5, 6] ∧ (∀ t ∈ [5, 5, 6], t < 64 ^ 8) ∧
      noWrapRun (newPushIDGenerator (List.replicate 12 1)) [5, 5, 6] = true) ∧
    (List.Chain' (· < ·) (runGen (newPushIDGenerator (List.replicate 12 1)) [5, 5, 6]) ∧
      List.Pairwise (· ≠ ·) (runGen (newPushIDGenerator (List.replicate 12 1)) [5, 5, 6])) :=
  ⟨⟨by decide, by simp, by decide, by decide⟩,
    runGen_strictMono _ _ (by decide) (by simp) (by decide) (by decide)⟩

/-! ## Shape of a generated id (claims C5 and C6) -/

theorem pushTimeDigits_eq (k : Nat) : ∀ t, pushTimeDigits k t =
    (List.range k).map (fun j => t / 64 ^ (k - 1 - j) % 64) := by
  induction k with
  | zero => intro t; simp [pushTimeDigits]
  | succ k ih =>
      intro t
      show pushTimeDigits k (t / 64) ++ [t % 64] = _
      rw [ih (t / 64), List.range_succ, List.map_append]
      congr 1
      · apply List.map_congr_left
        intro j hj
        rw [List.mem_range] at hj
        have hpow : (64 : Nat) ^ (k - j) = 64 * 64 ^ (k - 1 - j) := by
          have : k - j = (k - 1 - j) + 1 := by omega
          rw [this, pow_succ' 64]
        rw [Nat.div_div_eq_div_mul, ← hpow]
        have : k + 1 - 1 - j = k - j := by omega
        rw [this]
      · simp

theorem pushTimeDigits_eq_spec (t : Nat) : pushTimeDigits 8 t = specTimeDigits t := by
  rw [pushTimeDigits_eq]
  unfold specTimeDigits
  apply List.map_congr_left
  intro j _
  congr 1

theorem decodeTime_pushTimeDigits (k : Nat) : ∀ t,
    decodeTime (pushTimeDigits k t) = t % 64 ^ k := by
  induction k with
  | zero => intro t; simp [pushTimeDigits, decodeTime, Nat.mod_one]
  | succ k ih =>
      intro t
      show decodeTime (pushTimeDigits k (t / 64) ++ [t % 64]) = _
      unfold decodeTime
      rw [List.foldl_append]
      have hfold : (pushTimeDigits k (t / 64)).foldl (fun acc d => acc * 64 + d) 0
          = t / 64 % 64 ^ k := ih (t / 64)
      show (pushTimeDigits k (t / 64)).foldl (fun acc d => acc * 64 + d) 0 * 64 + t % 64
        = t % 64 ^ (k + 1)
      rw [hfold]
      have hq : 64 * (t / 64) + t % 64 = t := Nat.div_add_mod t 64
      have hmod : t % 64 ^ (k + 1) = t / 64 % 64 ^ k * 64 + t % 64 := by
        have hlt : 64 * (t / 64 % 64 ^ k) + t % 64 < 64 * 64 ^ k := by
          have h1 : t / 64 % 64 ^ k < 64 ^ k := Nat.mod_lt _ (Nat.pos_pow_of_pos k (by omega))
          have h2 : t % 64 < 64 := Nat.mod_lt _ (by omega)
          omega
        have hmm : 64 * (t / 64) ≡ 64 * (t / 64 % 64 ^ k) [MOD 64 * 64 ^ k] :=
          Nat.ModEq.mul_left' 64 (Nat.mod_modEq (t / 64) (64 ^ k)).symm
        calc t % 64 ^ (k + 1) = t % (64 * 64 ^ k) := by rw [← pow_succ' 64 k]
          _ = (64 * (t / 64) + t % 64) % (64 * 64 ^ k) := by rw [hq]
          _ = (64 * (t / 64 % 64 ^ k) + t % 64) % (64 * 64 ^ k) := by
              exact Nat.ModEq.add_right (t % 64) hmm
          _ = 64 * (t / 64 % 64 ^ k) + t % 64 := Nat.mod_eq_of_lt hlt
          _ = t / 64 % 64 ^ k * 64 + t % 64 := by ring
      omega

/-- C5: a generated id is 20 characters, every character is drawn from the
64-symbol push-id alphabet, the first 8 characters are the millisecond
timestamp in base 64 most-significant-digit first (and decode back to it),
and the last 12 characters are the entropy/counter digits of the state, most
significant (leftmost) character from the highest-index digit. -/
theorem generatePushID_format (g : IDGen) (now : Nat)
    (hlen : g.last.length = 12) (h64 : ∀ d ∈ g.last, d < 64) (hb : now < 64 ^ 8) :
    (generatePushID g now).1.length = 20 ∧
    (∀ c ∈ (generatePushID g now).1.toList, c ∈ pushChars) ∧
    (generatePushID g now).1.toList.take 8 = (specTimeDigits now).map pushChar ∧
    decodeTime (specTimeDigits now) = now ∧
    (generatePushID g now).1.toList.drop 8 = (genLast g now).reverse.map pushChar := by
  have hA : ((pushTimeDigits 8 now).map pushChar).length = 8 := by
    simp [pushTimeDigits_length]
  have hB : ((genLast g now).reverse.map pushChar).length = 12 := by
    simp [genLast_length now hlen]
  have htl : (generatePushID g now).1.toList =
      (pushTimeDigits 8 now).map pushChar ++ (genLast g now).reverse.map pushChar := rfl
  refine ⟨?_, ?_, ?_, ?_, ?_⟩
  · show ((pushTimeDigits 8 now).map pushChar ++ (genLast g now).reverse.map pushChar).length = 20
    rw [List.length_append, hA, hB]
  · rw [htl]
    intro c hc
    rcases List.mem_append.mp hc with h | h
    · obtain ⟨d, hd, rfl⟩ := List.mem_map.mp h
      exact pushChar_mem d (pushTimeDigits_lt_64 8 now d hd)
    · obtain ⟨d, hd, rfl⟩ := List.mem_map.mp h
      exact pushChar_mem d (genLast_lt_64 now h64 d (List.mem_reverse.mp hd))
  · rw [htl, List.take_left' hA, pushTimeDigits_eq_spec]
  · rw [← pushTimeDigits_eq_spec, decodeTime_pushTimeDigits]
    exact Nat.mod_eq_of_lt hb
  · rw [htl, List.drop_left' hA]

/-- C5 witness at a concrete state and timestamp. -/
theorem generatePushID_format_witness :
    ((newPushIDGenerator [0, 1, 2, 3, 4, 5, 6, 7, 8, 9, 10, 11]).last.length = 12 ∧
      (∀ d ∈ (newPushIDGenerator [0, 1, 2, 3, 4, 5, 6, 7, 8, 9, 10, 11]).last, d < 64) ∧
      99 < 64 ^ 8) ∧
    ((generatePushID (newPushIDGenerator [0, 1, 2, 3, 4, 5, 6, 7, 8, 9, 10, 11]) 99).1.length = 20 ∧
      (∀ c ∈ (generatePushID (newPushIDGenerator [0, 1, 2, 3, 4, 5, 6, 7, 8, 9, 10, 11]) 99).1.toList,
        c ∈ pushChars) ∧
      (generatePushID (newPushIDGenerator [0, 1, 2, 3, 4, 5, 6, 7, 8, 9, 10, 11]) 99).1.toList.take 8
        = (specTimeDigits 99).map pushChar ∧
      decodeTime (specTimeDigits 99) = 99 ∧
      (generatePushID (newPushIDGenerator [0, 1, 2, 3, 4, 5, 6, 7, 8, 9, 10, 11]) 99).1.toList.drop 8
        = (genLast (newPushIDGenerator [0, 1, 2, 3, 4, 5, 6, 7, 8, 9, 10, 11]) 99).reverse.map pushChar) :=
  ⟨⟨by decide, by decide, by decide⟩,
    generatePushID_format _ _ (by decide) (by decide) (by decide)⟩

/-- C6: under the lock, the entropy digits are incremented as a base-64
number (rightmost output digit least significant, carrying leftward past
63 to 0) exactly when the observed timestamp equals the previous one; a
differing timestamp leaves them unchanged; and every digit stays in
`[0, 64)`. -/
theorem generatePushID_counter (g : IDGen) (now : Nat)
    (hlen : g.last.length = 12) (h64 : ∀ d ∈ g.last, d < 64) :
    (g.stamp = now →
      (generatePushID g now).2.last = carryIncr g.last ∧
      val64 ((generatePushID g now).2.last) = (val64 g.last + 1) % 64 ^ 12) ∧
    (g.stamp ≠ now → (generatePushID g now).2.last = g.last) ∧
    (∀ d ∈ (generatePushID g now).2.last, d < 64) := by
  have hsnd : (generatePushID g now).2.last = genLast g now := rfl
  refine ⟨?_, ?_, ?_⟩
  · intro heq
    have hl : genLast g now = carryIncr g.last := by
      unfold genLast
      rw [if_pos heq]
    refine ⟨hsnd.trans hl, ?_⟩
    rw [hsnd, hl, carryIncr_val g.last h64, hlen]
  · intro hne
    rw [hsnd]
    unfold genLast
    rw [if_neg hne]
  · rw [hsnd]
    exact genLast_lt_64 now h64

/-- C6 witness: a same-millisecond call at an all-63 state wraps to zero. -/
theorem generatePushID_counter_witness :
    ((IDGen.mk 7 (List.replicate 12 63)).last.length = 12 ∧
      (∀ d ∈ (IDGen.mk 7 (List.replicate 12 63)).last, d < 64)) ∧
    (((IDGen.mk 7 (List.replicate 12 63)).stamp = 7 →
      (generatePushID (IDGen.mk 7 (List.replicate 12 63)) 7).2.last
        = carryIncr (IDGen.mk 7 (List.replicate 12 63)).last ∧
      val64 ((generatePushID (IDGen.mk 7 (List.replicate 12 63)) 7).2.last)
        = (val64 (IDGen.mk 7 (List.replicate 12 63)).last + 1) % 64 ^ 12) ∧
    ((IDGen.mk 7 (List.replicate 12 63)).stamp ≠ 7 →
      (generatePushID (IDGen.mk 7 (List.replicate 12 63)) 7).2.last
        = (IDGen.mk 7 (List.replicate 12 63)).last) ∧
    (∀ d ∈ (generatePushID (IDGen.mk 7 (List.replicate 12 63)) 7).2.last, d < 64)) :=
  ⟨⟨by decide, by decide⟩,
    generatePushID_counter _ _ (by decide) (by decide)⟩

/-! ## SSE watch machinery (watch.go)

The byte stream delivered by the HTTP response body is a finite `List Char`
followed by either end-of-stream (`terr = none`) or a transport read error
with message `terr = some msg`.  A goroutine's channel traffic is the list of
sent values with an explicit marker for `close`. -/

/-- Event type, a Go string. -/
abbrev EventType := List Char

def eventTypePut : EventType := "put".toList

def eventTypePatch : EventType := "patch".toList

def eventTypeKeepAlive : EventType := "keep-alive".toList

def eventTypeClosed : EventType := "closed".toList

def eventTypeUnknownError : EventType := "unknown_error".toList

def eventTypeMalformedEventError : EventType := "malformed_event_error".toList

def eventTypeMalformedDataError : EventType := "malformed_data_error".toList

/-- A Firebase server-sent event (Go struct `Event` with fields `Type` and
`Data`). -/
structure Event where
  type : EventType
  data : List Char
  deriving Repr, DecidableEq

/-- Go constant `watchEventPrefix`. -/
def watchEventPfx : List Char := "event: ".toList

/-- Go constant `watchDataPrefix`. -/
def watchDataPfx : List Char := "data: ".toList

/-- Remaining response-body bytes plus the terminal condition the underlying
reader reports once they are exhausted: `none` models end-of-stream
(`io.EOF`), `some msg` a non-EOF transport read error. -/
structure Rdr where
  bytes : List Char
  terr : Option (List Char)
  deriving Repr, DecidableEq

/-- Outcome of the underlying read when no full line is available. -/
inductive ReadErr where
  | eof
  | fail (msg : List Char)
  deriving Repr, DecidableEq

/-- Splits off the first line, newline included (the contract of
`bufio.Reader.ReadBytes('\n')` when the delimiter is found). -/
def splitAtNL : List Char → Option (List Char × List Char)
  | [] => none
  | c :: rest =>
    if c = '\n' then some ([c], rest)
    else
      match splitAtNL rest with
      | none => none
      | some (l, r) => some (c :: l, r)

/-- Model of `rdr.ReadBytes('\n')`: a full line including the delimiter, or
the terminal condition (any partial data is discarded by the caller). -/
def readBytesNL (r : Rdr) : Except ReadErr (List Char) × Rdr :=
  match splitAtNL r.bytes with
  | some (l, rest) => (.ok l, ⟨rest, r.terr⟩)
  | none =>
    match r.terr with
    | none => (.error .eof, r)
    | some m => (.error (.fail m), r)

/-- Whitespace trimmed by `bytes.TrimSpace` (`unicode.IsSpace` on the
Latin-1 range). -/
def isSpaceChar (c : Char) : Bool :=
  c = ' ' || c = '\t' || c = '\n' || c = '\x0b' || c = '\x0c' || c = '\r' ||
    c = '\x85' || c = '\xa0'

/-- Model of `bytes.TrimSpace`. -/
def trimSpace (l : List Char) : List Char :=
  ((l.dropWhile isSpaceChar).reverse.dropWhile isSpaceChar).reverse

/-- Go function `readLine`: reads one line, synthesizing an error event on a
terminal read condition or a missing prefix; with an empty `pfx` it instead
checks for a blank line. -/
def readLine (rdr : Rdr) (pfx : List Char) (errEventType : EventType) :
    Except Event (List Char) × Rdr :=
  match readBytesNL rdr with
  | (.error .eof, r') => (.error ⟨eventTypeClosed, "connection closed".toList⟩, r')
  | (.error (.fail m), r') => (.error ⟨eventTypeUnknownError, m⟩, r')
  | (.ok line, r') =>
    if pfx.length = 0 then
      let t := trimSpace line
      if t.length ≠ 0 then (.error ⟨errEventType, "expected empty line".toList⟩, r')
      else (.ok t, r')
    else if pfx.isPrefixOf line then (.ok (trimSpace (line.drop pfx.length)), r')
    else (.error ⟨errEventType, "missing prefix".toList⟩, r')

/-- One value on a `Watch` session's channel, or its close. -/
inductive Item where
  | ev (e : Event)
  | close
  deriving Repr, DecidableEq

instance {α β : Type _} [DecidableEq α] [DecidableEq β] : DecidableEq (Except α β) :=
  fun x y =>
    match x, y with
    | .error a, .error b =>
      if h : a = b then .isTrue (by rw [h]) else .isFalse (fun hx => h (Except.error.inj hx))
    | .error _, .ok _ => .isFalse (fun hx => Except.noConfusion hx)
    | .ok _, .error _ => .isFalse (fun hx => Except.noConfusion hx)
    | .ok a, .ok b =>
      if h : a = b then .isTrue (by rw [h]) else .isFalse (fun hx => h (Except.ok.inj hx))

theorem splitAtNL_shape : ∀ l : List Char, ∀ p, splitAtNL l = some p →
    l = p.1 ++ p.2 ∧ p.1 ≠ [] := by
  intro l
  induction l with
  | nil => intro p h; simp [splitAtNL] at h
  | cons c rest ih =>
      intro p h
      by_cases hc : c = '\n'
      · simp only [splitAtNL, if_pos hc] at h
        obtain rfl := Option.some.inj h
        exact ⟨rfl, by simp⟩
      · simp only [splitAtNL, if_neg hc] at h
        rcases h' : splitAtNL rest with _ | ⟨l', r'⟩
        · rw [h'] at h; simp at h
        · rw [h'] at h
          obtain rfl := Option.some.inj h
          obtain ⟨h1, _⟩ := ih (l', r') h'
          exact ⟨by simp [← h1], by simp⟩

theorem readLine_ok_bytes_lt {rdr : Rdr} {pfx : List Char} {ty : EventType}
    {l : List Char} {r' : Rdr} (h : readLine rdr pfx ty = (.ok l, r')) :
    r'.bytes.length < rdr.bytes.length := by
  unfold readLine readBytesNL at h
  rcases hs : splitAtNL rdr.bytes with _ | ⟨line, rest⟩ <;> rw [hs] at h
  · rcases htr : rdr.terr with _ | m <;> rw [htr] at h <;> simp at h
  · obtain ⟨hshape, hne⟩ := splitAtNL_shape rdr.bytes (line, rest) hs
    have hlen : rest.length < rdr.bytes.length := by
      rw [hshape, List.length_append]
      cases line with
      | nil => exact absurd rfl hne
      | cons a as => simp
    simp only at h
    split_ifs at h with h1 h2 h3
    · simp at h
    · injection h with h4 h5
      rw [← h5]
      exact hlen
    · injection h with h4 h5
      rw [← h5]
      exact hlen
    · simp at h

/-- Cancellation schedule bookkeeping: the read loop observes `ctxt.Done()`
at the start of iteration `n` when the schedule is `some n`. -/
def decCancel : Option Nat → Option Nat
  | none => none
  | some n => some (n - 1)

/-- The background read loop of `Watch`: per iteration it reads the
`event:` line, the `data:` line (emitting the parsed event as soon as both
are read), then consumes the blank separator; any synthesized error event is
emitted and the channel closed; observing a done context closes the channel
with no event. -/
def watchRun (rdr : Rdr) (cancel : Option Nat) : List Item :=
  if cancel = some 0 then [Item.close]
  else
    match h1 : readLine rdr watchEventPfx eventTypeMalformedEventError with
    | (.error e, _) => [Item.ev e, Item.close]
    | (.ok typ, rdr1) =>
      match h2 : readLine rdr1 watchDataPfx eventTypeMalformedDataError with
      | (.error e, _) => [Item.ev e, Item.close]
      | (.ok dat, rdr2) =>
        Item.ev ⟨typ, dat⟩ ::
          match h3 : readLine rdr2 [] eventTypeUnknownError with
          | (.error e, _) => [Item.ev e, Item.close]
          | (.ok _, rdr3) => watchRun rdr3 (decCancel cancel)
termination_by rdr.bytes.length
decreasing_by
  exact lt_trans (lt_trans (readLine_ok_bytes_lt h3) (readLine_ok_bytes_lt h2))
    (readLine_ok_bytes_lt h1)

/-- Outcome of one `Watch` call as seen by the `Listen` supervisor: either
the synchronous call fails, or it hands back a channel that delivers the
given events and is then closed. -/
inductive Session where
  | connFail
  | stream (evs : List Event)
  deriving Repr, DecidableEq

/-- One value on `Listen`'s output channel, or its close. -/
inductive LOut where
  | ev (e : Event)
  | close
  deriving Repr, DecidableEq

/-- The filter loop body of `Listen`: `for _, typ := range eventTypes`,
sending the event once per matching entry. -/
def forwardEvent (eventTypes : List EventType) (e : Event) : List LOut :=
  eventTypes.flatMap fun typ => if typ = e.type then [LOut.ev e] else []

/-- The supervisor loop of `Listen` over a prescribed sequence of `Watch`
outcomes: a failed `Watch` call closes the output channel and stops; a
stream's events are filtered and forwarded, then the next `Watch` begins.
An exhausted outcome list models a supervisor still running (cancellation
closes the channel but sends nothing, so it adds no output item here). -/
def listenRun : List Session → List EventType → List LOut
  | [], _ => []
  | Session.connFail :: _, _ => [LOut.close]
  | Session.stream evs :: rest, eventTypes =>
      evs.flatMap (forwardEvent eventTypes) ++ listenRun rest eventTypes

/-! ## Listen supervisor theorems (claims C2, C3, C10) -/

theorem forwardEvent_no_close (tys : List EventType) (e : Event) :
    LOut.close ∉ forwardEvent tys e := by
  unfold forwardEvent
  intro h
  obtain ⟨t, _, hmem⟩ := List.mem_flatMap.mp h
  by_cases ht : t = e.type
  · rw [if_pos ht] at hmem; simp at hmem
  · rw [if_neg ht] at hmem; simp at hmem

theorem forwardEvent_mem {tys : List EventType} {e e' : Event} :
    LOut.ev e' ∈ forwardEvent tys e ↔ e' = e ∧ e.type ∈ tys := by
  unfold forwardEvent
  rw [List.mem_flatMap]
  constructor
  · rintro ⟨t, ht, hmem⟩
    by_cases h : t = e.type
    · rw [if_pos h] at hmem
      simp only [List.mem_singleton, LOut.ev.injEq] at hmem
      exact ⟨hmem, h ▸ ht⟩
    · rw [if_neg h] at hmem; simp at hmem
  · rintro ⟨rfl, hty⟩
    exact ⟨e'.type, hty, by simp⟩

/-- C2 (amended): `Listen`'s output channel is closed exactly when some
`Watch` call fails synchronously — whether it is the first call or any later
reconnection attempt; terminal events of an established stream (end of the
session's event list) never close the output, so those are retried without
backoff or cap. -/
theorem listenRun_close_iff (sessions : List Session) (eventTypes : List EventType) :
    LOut.close ∈ listenRun sessions eventTypes ↔ Session.connFail ∈ sessions := by
  induction sessions with
  | nil => simp [listenRun]
  | cons s rest ih =>
      cases s with
      | connFail => simp [listenRun]
      | stream evs =>
          simp only [listenRun, List.mem_append, List.mem_cons]
          constructor
          · rintro (h | h)
            · obtain ⟨e, _, hmem⟩ := List.mem_flatMap.mp h
              exact absurd hmem (forwardEvent_no_close _ _)
            · exact Or.inr (ih.mp h)
          · rintro (h | h)
            · exact absurd h (by simp)
            · exact Or.inr (ih.mpr h)

/-- C2 counterexample: after one successfully established stream, a failed
`Watch` call is still fatal — `Listen` closes its output and the events of
any later stream are never delivered, contradicting the claim that failures
after the first established stream are transient and retried. -/
theorem listenRun_second_connFail_counterexample :
    listenRun [Session.stream [⟨eventTypePut, "a".toList⟩], Session.connFail,
        Session.stream [⟨eventTypePut, "b".toList⟩]] [eventTypePut]
      = [LOut.ev ⟨eventTypePut, "a".toList⟩, LOut.close] ∧
    LOut.ev ⟨eventTypePut, "b".toList⟩ ∉
      listenRun [Session.stream [⟨eventTypePut, "a".toList⟩], Session.connFail,
        Session.stream [⟨eventTypePut, "b".toList⟩]] [eventTypePut] := by
  decide

/-- C3 counterexample: the terminal event that ends a session passes through
the same filter as every other event — with `closed` in the requested set it
is forwarded to the consumer, contradicting that the terminal event is
always discarded. -/
theorem listenRun_terminal_forwarded_counterexample :
    listenRun [Session.stream [⟨eventTypeClosed, "connection closed".toList⟩]]
        [eventTypeClosed]
      = [LOut.ev ⟨eventTypeClosed, "connection closed".toList⟩] := by decide

/-- C3 (amended): every event `Listen` forwards has a type in the requested
set, and conversely — while no `Watch` call fails — every session event
whose type is requested is forwarded; terminal events are not special-cased:
they are forwarded exactly when their type is requested, so with `{put}`
neither `patch`, `keep-alive` nor any terminal event is ever delivered. -/
theorem listenRun_filter (sessions : List Session) (eventTypes : List EventType) :
    (∀ e : Event, LOut.ev e ∈ listenRun sessions eventTypes → e.type ∈ eventTypes) ∧
    (Session.connFail ∉ sessions →
      ∀ evs : List Event, Session.stream evs ∈ sessions →
        ∀ e ∈ evs, e.type ∈ eventTypes → LOut.ev e ∈ listenRun sessions eventTypes) := by
  induction sessions with
  | nil =>
      constructor
      · intro e h; simp [listenRun] at h
      · intro _ evs h; simp at h
  | cons s rest ih =>
      obtain ⟨ih1, ih2⟩ := ih
      cases s with
      | connFail =>
          constructor
          · intro e h; simp [listenRun] at h
          · intro hnf; exact absurd (by simp) hnf
      | stream evs0 =>
          constructor
          · intro e h
            simp only [listenRun, List.mem_append] at h
            rcases h with h | h
            · obtain ⟨e0, _, hf⟩ := List.mem_flatMap.mp h
              obtain ⟨rfl, hty⟩ := forwardEvent_mem.mp hf
              exact hty
            · exact ih1 e h
          · intro hnf evs hmem e he hty
            have hnf' : Session.connFail ∉ rest := fun hc => hnf (List.mem_cons_of_mem _ hc)
            simp only [listenRun, List.mem_append]
            rcases List.mem_cons.mp hmem with heq | hmem'
            · injection heq with heq'
              subst heq'
              exact Or.inl (List.mem_flatMap.mpr ⟨e, he, forwardEvent_mem.mpr ⟨rfl, hty⟩⟩)
            · exact Or.inr (ih2 hnf' evs hmem' e he hty)

/-- C3 witness: with filter consisting of put only, a put event received in a
session is forwarded. -/
theorem listenRun_filter_witness :
    LOut.ev ⟨eventTypePut, "x".toList⟩ ∈
      listenRun [Session.stream [⟨eventTypePut, "x".toList⟩, ⟨eventTypePatch, "y".toList⟩]]
        [eventTypePut] :=
  (listenRun_filter _ _).2 (by decide)
    [⟨eventTypePut, "x".toList⟩, ⟨eventTypePatch, "y".toList⟩] (by decide)
    ⟨eventTypePut, "x".toList⟩ (by decide) (by decide)

theorem forwardEvent_count (tys : List EventType) (e e' : Event) :
    (forwardEvent tys e').count (LOut.ev e)
      = if e' = e then tys.count e'.type else 0 := by
  induction tys with
  | nil => simp [forwardEvent]
  | cons t rest ih =>
      have hstep : forwardEvent (t :: rest) e'
          = (if t = e'.type then [LOut.ev e'] else []) ++ forwardEvent rest e' := by
        unfold forwardEvent
        rw [List.flatMap_cons]
      rw [hstep, List.count_append, ih]
      by_cases hee : e' = e
      · subst hee
        by_cases ht : t = e'.type
        · subst ht
          simp [List.count_cons]
          omega
        · have h2 : (e'.type == t) = false := beq_eq_false_iff_ne.mpr fun hx => ht hx.symm
          simp [ht, h2, List.count_cons]
      · have h3 : (LOut.ev e == LOut.ev e') = false := by
          apply beq_eq_false_iff_ne.mpr
          intro hx
          injection hx with hx'
          exact hee hx'.symm
        by_cases ht : t = e'.type <;> simp [ht, hee, h3, List.count_cons]

/-- C10: with a duplicated entry in `eventTypes`, each matching event is
forwarded once per occurrence: over one session the number of deliveries of
an event equals (occurrences of the event in the session) times (occurrences
of its type in `eventTypes`). -/
theorem listenRun_duplicate_forwarding (evs : List Event)
    (eventTypes : List EventType) (e : Event) :
    (listenRun [Session.stream evs] eventTypes).count (LOut.ev e)
      = evs.count e * eventTypes.count e.type := by
  show (evs.flatMap (forwardEvent eventTypes) ++ listenRun [] eventTypes).count (LOut.ev e) = _
  rw [show listenRun [] eventTypes = [] from rfl, List.append_nil]
  induction evs with
  | nil => simp
  | cons e0 rest ih =>
      rw [List.flatMap_cons, List.count_append, ih, forwardEvent_count, List.count_cons]
      by_cases hee : e0 = e
      · subst hee
        simp [Nat.add_mul]
        ring
      · have hne : (e == e0) = false := beq_eq_false_iff_ne.mpr (Ne.symm hee)
        simp [hee, hne]

/-! ## Frame-reader classification (claim C4) -/

/-- C4 (amended): every anomaly in a read-cycle is classified as exactly one
synthesized terminal event: end-of-stream yields `closed` with "connection
closed"; a non-EOF transport error yields `unknown_error` carrying the error
text; a first line without the "event: " prefix yields
`malformed_event_error`; a second line without the "data: " prefix yields
`malformed_data_error`; a third line that is non-blank after trimming yields
`unknown_error` with the fixed diagnostic "expected empty line". -/
theorem readLine_classification :
    (∀ (r : Rdr) (pfx : List Char) (ty : EventType), splitAtNL r.bytes = none →
      r.terr = none →
      readLine r pfx ty = (.error ⟨eventTypeClosed, "connection closed".toList⟩, r)) ∧
    (∀ (r : Rdr) (pfx : List Char) (ty : EventType) (m : List Char),
      splitAtNL r.bytes = none → r.terr = some m →
      readLine r pfx ty = (.error ⟨eventTypeUnknownError, m⟩, r)) ∧
    (∀ (r : Rdr) (line rest : List Char), splitAtNL r.bytes = some (line, rest) →
      watchEventPfx.isPrefixOf line = false →
      readLine r watchEventPfx eventTypeMalformedEventError
        = (.error ⟨eventTypeMalformedEventError, "missing prefix".toList⟩, ⟨rest, r.terr⟩)) ∧
    (∀ (r : Rdr) (line rest : List Char), splitAtNL r.bytes = some (line, rest) →
      watchDataPfx.isPrefixOf line = false →
      readLine r watchDataPfx eventTypeMalformedDataError
        = (.error ⟨eventTypeMalformedDataError, "missing prefix".toList⟩, ⟨rest, r.terr⟩)) ∧
    (∀ (r : Rdr) (line rest : List Char), splitAtNL r.bytes = some (line, rest) →
      trimSpace line ≠ [] →
      readLine r [] eventTypeUnknownError
        = (.error ⟨eventTypeUnknownError, "expected empty line".toList⟩, ⟨rest, r.terr⟩)) := by
  refine ⟨?_, ?_, ?_, ?_, ?_⟩
  · intro r pfx ty hs htr
    unfold readLine readBytesNL
    rw [hs, htr]
  · intro r pfx ty m hs htr
    unfold readLine readBytesNL
    rw [hs, htr]
  · intro r line rest hs hpre
    unfold readLine readBytesNL
    rw [hs]
    have hpre' : ¬ watchEventPfx <+: line :=
      fun hp => by rw [List.isPrefixOf_iff_prefix.mpr hp] at hpre; exact Bool.noConfusion hpre
    simp [hpre, hpre', (by decide : ¬ watchEventPfx.length = 0)]
  · intro r line rest hs hpre
    unfold readLine readBytesNL
    rw [hs]
    have hpre' : ¬ watchDataPfx <+: line :=
      fun hp => by rw [List.isPrefixOf_iff_prefix.mpr hp] at hpre; exact Bool.noConfusion hpre
    simp [hpre, hpre', (by decide : ¬ watchDataPfx.length = 0)]
  · intro r line rest hs ht
    unfold readLine readBytesNL
    rw [hs]
    have hlen : ¬ (trimSpace line).length = 0 := fun h0 => ht (List.length_eq_zero.mp h0)
    simp [hlen]

/-- C4 counterexample: the diagnostic for a non-blank third line is the fixed
text "expected empty line" — two different unexpected contents produce the
identical diagnostic, so it does not name the unexpected content. -/
theorem readLine_fixed_diagnostic_counterexample :
    readLine ⟨"oops\n".toList, none⟩ [] eventTypeUnknownError
      = (.error ⟨eventTypeUnknownError, "expected empty line".toList⟩, ⟨[], none⟩) ∧
    readLine ⟨"zap\n".toList, none⟩ [] eventTypeUnknownError
      = (.error ⟨eventTypeUnknownError, "expected empty line".toList⟩, ⟨[], none⟩) := by
  decide

/-- C4 witness: each classification case at a concrete input. -/
theorem readLine_classification_witness :
    (readLine ⟨['x'], none⟩ watchEventPfx eventTypeMalformedEventError
      = (.error ⟨eventTypeClosed, "connection closed".toList⟩, ⟨['x'], none⟩)) ∧
    (readLine ⟨['x'], some "boom".toList⟩ watchEventPfx eventTypeMalformedEventError
      = (.error ⟨eventTypeUnknownError, "boom".toList⟩, ⟨['x'], some "boom".toList⟩)) ∧
    (readLine ⟨"nope\n".toList, none⟩ watchEventPfx eventTypeMalformedEventError
      = (.error ⟨eventTypeMalformedEventError, "missing prefix".toList⟩, ⟨[], none⟩)) ∧
    (readLine ⟨"nope\n".toList, none⟩ watchDataPfx eventTypeMalformedDataError
      = (.error ⟨eventTypeMalformedDataError, "missing prefix".toList⟩, ⟨[], none⟩)) ∧
    (readLine ⟨"junk\n".toList, none⟩ [] eventTypeUnknownError
      = (.error ⟨eventTypeUnknownError, "expected empty line".toList⟩, ⟨[], none⟩)) :=
  ⟨readLine_classification.1 ⟨['x'], none⟩ watchEventPfx eventTypeMalformedEventError
      (by decide) rfl,
    readLine_classification.2.1 ⟨['x'], some "boom".toList⟩ watchEventPfx
      eventTypeMalformedEventError "boom".toList (by decide) rfl,
    readLine_classification.2.2.1 ⟨"nope\n".toList, none⟩ "nope\n".toList []
      (by decide) (by decide),
    readLine_classification.2.2.2.1 ⟨"nope\n".toList, none⟩ "nope\n".toList []
      (by decide) (by decide),
    readLine_classification.2.2.2.2 ⟨"junk\n".toList, none⟩ "junk\n".toList []
      (by decide) (by decide)⟩

/-! ## Successful frame parsing (claims C8 and C9) -/

theorem splitAtNL_append (a b : List Char) (ha : '\n' ∉ a) :
    splitAtNL (a ++ '\n' :: b) = some (a ++ ['\n'], b) := by
  induction a with
  | nil => simp [splitAtNL]
  | cons c rest ih =>
      have hc : ¬ c = '\n' := fun h => ha (h ▸ List.mem_cons_self _ _)
      have ha' : '\n' ∉ rest := fun h => ha (List.mem_cons_of_mem _ h)
      show (if c = '\n' then some ([c], rest ++ '\n' :: b)
        else match splitAtNL (rest ++ '\n' :: b) with
          | none => none
          | some (l, r) => some (c :: l, r)) = some ((c :: rest) ++ ['\n'], b)
      rw [if_neg hc, ih ha']
      rfl

theorem trimSpace_append_space {c : Char} (hc : isSpaceChar c = true) (l : List Char) :
    trimSpace (l ++ [c]) = trimSpace l := by
  unfold trimSpace
  rw [List.dropWhile_append]
  by_cases he : (List.dropWhile isSpaceChar l).isEmpty
  · rw [if_pos he]
    have h1 : List.dropWhile isSpaceChar [c] = [] := by
      rw [List.dropWhile_cons, if_pos hc]
      rfl
    have h2 : List.dropWhile isSpaceChar l = [] := List.isEmpty_iff.mp he
    rw [h1, h2]
  · rw [if_neg he, List.reverse_append, List.reverse_singleton, List.singleton_append,
      List.dropWhile_cons, if_pos hc]

/-- A line consisting of a nonempty prefix, newline-free content and the
delimiter parses successfully, stripping the prefix and surrounding
whitespace. -/
theorem readLine_success (pfx content rest : List Char) (terr : Option (List Char))
    (ty : EventType) (hp : pfx ≠ []) (hnp : '\n' ∉ pfx) (hnc : '\n' ∉ content) :
    readLine ⟨pfx ++ content ++ '\n' :: rest, terr⟩ pfx ty
      = (.ok (trimSpace content), ⟨rest, terr⟩) := by
  have hnl : '\n' ∉ pfx ++ content := by
    intro h
    rcases List.mem_append.mp h with h | h
    · exact hnp h
    · exact hnc h
  have hs : splitAtNL (pfx ++ content ++ '\n' :: rest)
      = some (pfx ++ (content ++ ['\n']), rest) := by
    have h := splitAtNL_append (pfx ++ content) rest hnl
    rw [List.append_assoc] at h
    rw [← List.append_assoc pfx content ('\n' :: rest)] at h
    exact h.trans (by rw [List.append_assoc])
  have hlen : ¬ pfx.length = 0 := fun h0 => hp (List.length_eq_zero.mp h0)
  have hpre : pfx <+: pfx ++ (content ++ ['\n']) := List.prefix_append _ _
  unfold readLine readBytesNL
  simp only [hs]
  simp [hlen, List.isPrefixOf_iff_prefix.mpr hpre, List.drop_left,
    trimSpace_append_space (by decide : isSpaceChar '\n' = true)]

/-- The blank separator line parses successfully. -/
theorem readLine_empty_ok (rest : List Char) (terr : Option (List Char)) (ty : EventType) :
    readLine ⟨'\n' :: rest, terr⟩ [] ty = (.ok [], ⟨rest, terr⟩) := by
  have hs : splitAtNL ('\n' :: rest) = some (['\n'], rest) := by
    simp [splitAtNL]
  unfold readLine readBytesNL
  simp only [hs]
  simp [trimSpace, List.dropWhile, isSpaceChar]

theorem watchRun_eq_cancel (rdr : Rdr) : watchRun rdr (some 0) = [Item.close] := by
  rw [watchRun.eq_def, if_pos rfl]

theorem watchRun_eq_err1 {rdr : Rdr} {c : Option Nat} {e : Event} {r' : Rdr}
    (hc : ¬ c = some 0)
    (h1 : readLine rdr watchEventPfx eventTypeMalformedEventError = (.error e, r')) :
    watchRun rdr c = [Item.ev e, Item.close] := by
  rw [watchRun.eq_def, if_neg hc]
  split
  · next e' snd heq =>
      rw [h1] at heq
      injection heq with ha _
      injection ha with ha'
      rw [ha']
  · next typ rdr1 heq =>
      rw [h1] at heq
      injection heq with ha _
      exact Except.noConfusion ha

theorem watchRun_eq_err2 {rdr rdr1 : Rdr} {c : Option Nat} {typ : List Char}
    {e : Event} {r' : Rdr} (hc : ¬ c = some 0)
    (h1 : readLine rdr watchEventPfx eventTypeMalformedEventError = (.ok typ, rdr1))
    (h2 : readLine rdr1 watchDataPfx eventTypeMalformedDataError = (.error e, r')) :
    watchRun rdr c = [Item.ev e, Item.close] := by
  rw [watchRun.eq_def, if_neg hc]
  split
  · next e' snd heq =>
      rw [h1] at heq
      injection heq with ha _
      exact Except.noConfusion ha
  · next typ' rdr1' heq =>
      rw [h1] at heq
      injection heq with ha hb
      injection ha with ha'
      subst ha'
      subst hb
      split
      · next e' snd heq2 =>
          rw [h2] at heq2
          injection heq2 with ha2 _
          injection ha2 with ha2'
          rw [ha2']
      · next dat rdr2 heq2 =>
          rw [h2] at heq2
          injection heq2 with ha2 _
          exact Except.noConfusion ha2

theorem watchRun_eq_err3 {rdr rdr1 rdr2 : Rdr} {c : Option Nat} {typ dat : List Char}
    {e : Event} {r' : Rdr} (hc : ¬ c = some 0)
    (h1 : readLine rdr watchEventPfx eventTypeMalformedEventError = (.ok typ, rdr1))
    (h2 : readLine rdr1 watchDataPfx eventTypeMalformedDataError = (.ok dat, rdr2))
    (h3 : readLine rdr2 [] eventTypeUnknownError = (.error e, r')) :
    watchRun rdr c = [Item.ev ⟨typ, dat⟩, Item.ev e, Item.close] := by
  rw [watchRun.eq_def, if_neg hc]
  split
  · next e' snd heq =>
      rw [h1] at heq
      injection heq with ha _
      exact Except.noConfusion ha
  · next typ' rdr1' heq =>
      rw [h1] at heq
      injection heq with ha hb
      injection ha with ha'
      subst ha'
      subst hb
      split
      · next e' snd heq2 =>
          rw [h2] at heq2
          injection heq2 with ha2 _
          exact Except.noConfusion ha2
      · next dat' rdr2' heq2 =>
          rw [h2] at heq2
          injection heq2 with ha2 hb2
          injection ha2 with ha2'
          subst ha2'
          subst hb2
          congr 1
          split
          · next e' snd heq3 =>
              rw [h3] at heq3
              injection heq3 with ha3 _
              injection ha3 with ha3'
              rw [ha3']
          · next bl rdr3 heq3 =>
              rw [h3] at heq3
              injection heq3 with ha3 _
              exact Except.noConfusion ha3

theorem watchRun_eq_cons {rdr rdr1 rdr2 rdr3 : Rdr} {c : Option Nat}
    {typ dat bl : List Char} (hc : ¬ c = some 0)
    (h1 : readLine rdr watchEventPfx eventTypeMalformedEventError = (.ok typ, rdr1))
    (h2 : readLine rdr1 watchDataPfx eventTypeMalformedDataError = (.ok dat, rdr2))
    (h3 : readLine rdr2 [] eventTypeUnknownError = (.ok bl, rdr3)) :
    watchRun rdr c = Item.ev ⟨typ, dat⟩ :: watchRun rdr3 (decCancel c) := by
  rw [watchRun.eq_def, if_neg hc]
  split
  · next e' snd heq =>
      rw [h1] at heq
      injection heq with ha _
      exact Except.noConfusion ha
  · next typ' rdr1' heq =>
      rw [h1] at heq
      injection heq with ha hb
      injection ha with ha'
      subst ha'
      subst hb
      split
      · next e' snd heq2 =>
          rw [h2] at heq2
          injection heq2 with ha2 _
          exact Except.noConfusion ha2
      · next dat' rdr2' heq2 =>
          rw [h2] at heq2
          injection heq2 with ha2 hb2
          injection ha2 with ha2'
          subst ha2'
          subst hb2
          congr 1
          split
          · next e' snd heq3 =>
              rw [h3] at heq3
              injection heq3 with ha3 _
              exact Except.noConfusion ha3
          · next bl' rdr3' heq3 =>
              rw [h3] at heq3
              injection heq3 with _ hb3
              rw [hb3]

/-- C8: a well-formed frame — an "event: " line, a "data: " line, a blank
separator — yields the parsed event with the prefixes and surrounding
whitespace stripped, with no error event, and the read loop continues with
the remaining input. -/
theorem watchRun_frame (t d rest : List Char) (terr : Option (List Char))
    (ht : '\n' ∉ t) (hd : '\n' ∉ d) :
    watchRun ⟨watchEventPfx ++ t ++ '\n' :: (watchDataPfx ++ d ++ '\n' :: '\n' :: rest), terr⟩ none
      = Item.ev ⟨trimSpace t, trimSpace d⟩ :: watchRun ⟨rest, terr⟩ none := by
  have h1 := readLine_success watchEventPfx t (watchDataPfx ++ d ++ '\n' :: '\n' :: rest) terr
    eventTypeMalformedEventError (by decide) (by decide) ht
  have h2 := readLine_success watchDataPfx d ('\n' :: rest) terr
    eventTypeMalformedDataError (by decide) (by decide) hd
  have h3 := readLine_empty_ok rest terr eventTypeUnknownError
  rw [watchRun_eq_cons (by simp) h1 h2 h3]
  rfl

/-- C9: the parsed event is emitted before the blank terminator line is read
or validated: whenever the first two lines parse and the third-line read
fails (end-of-stream or a non-blank line), the frame's parsed event is still
delivered, followed by the synthesized terminal event, before the channel
closes. -/
theorem watchRun_emit_before_terminator (t d tl : List Char) (terr : Option (List Char))
    (ht : '\n' ∉ t) (hd : '\n' ∉ d) (e : Event) (r' : Rdr)
    (h3 : readLine ⟨tl, terr⟩ [] eventTypeUnknownError = (.error e, r')) :
    watchRun ⟨watchEventPfx ++ t ++ '\n' :: (watchDataPfx ++ d ++ '\n' :: tl), terr⟩ none
      = [Item.ev ⟨trimSpace t, trimSpace d⟩, Item.ev e, Item.close] := by
  have h1 := readLine_success watchEventPfx t (watchDataPfx ++ d ++ '\n' :: tl) terr
    eventTypeMalformedEventError (by decide) (by decide) ht
  have h2 := readLine_success watchDataPfx d tl terr
    eventTypeMalformedDataError (by decide) (by decide) hd
  exact watchRun_eq_err3 (by simp) h1 h2 h3

/-- C9 witness: a frame whose third line is missing entirely (end-of-stream)
still delivers the parsed event, then the closed event, then the close. -/
theorem watchRun_emit_before_terminator_witness :
    readLine ⟨[], none⟩ [] eventTypeUnknownError
      = (.error ⟨eventTypeClosed, "connection closed".toList⟩, ⟨[], none⟩) ∧
    watchRun ⟨watchEventPfx ++ "put".toList ++ '\n'
        :: (watchDataPfx ++ "1".toList ++ '\n' :: []), none⟩ none
      = [Item.ev ⟨trimSpace "put".toList, trimSpace "1".toList⟩,
          Item.ev ⟨eventTypeClosed, "connection closed".toList⟩, Item.close] :=
  ⟨by decide,
    watchRun_emit_before_terminator "put".toList "1".toList [] none
      (by decide) (by decide) ⟨eventTypeClosed, "connection closed".toList⟩ ⟨[], none⟩
      (by decide)⟩

/-- C8 witness: the concrete triplet with event type put and a JSON payload. -/
theorem watchRun_frame_witness :
    watchRun ⟨("event: put\ndata: \x7b\"a\":1\x7d\n\n").toList, none⟩ none
      = Item.ev ⟨eventTypePut, ("\x7b\"a\":1\x7d").toList⟩ :: watchRun ⟨[], none⟩ none := by
  have h := watchRun_frame "put".toList ("\x7b\"a\":1\x7d").toList [] none
    (by decide) (by decide)
  exact (by decide :
      (("event: put\ndata: \x7b\"a\":1\x7d\n\n").toList : List Char)
        = watchEventPfx ++ "put".toList ++ '\n'
          :: (watchDataPfx ++ ("\x7b\"a\":1\x7d").toList ++ '\n' :: '\n' :: [])) ▸
    (by decide : trimSpace ("put".toList) = eventTypePut) ▸
    (by decide : trimSpace (("\x7b\"a\":1\x7d").toList) = ("\x7b\"a\":1\x7d").toList) ▸ h

/-! ## Per-session terminal outcome (claim C7) -/

theorem readLine_error_type {rdr : Rdr} {pfx : List Char} {ty : EventType} {e : Event}
    {r' : Rdr} (h : readLine rdr pfx ty = (.error e, r')) :
    e.type = eventTypeClosed ∨ e.type = eventTypeUnknownError ∨ e.type = ty := by
  unfold readLine readBytesNL at h
  rcases hs : splitAtNL rdr.bytes with _ | ⟨line, rest⟩ <;> rw [hs] at h
  · rcases htr : rdr.terr with _ | m <;> rw [htr] at h
    · injection h with ha _
      injection ha with ha'
      rw [← ha']
      left
      rfl
    · injection h with ha _
      injection ha with ha'
      rw [← ha']
      right
      left
      rfl
  · simp only at h
    split_ifs at h with h1 h2 h3
    · injection h with ha _
      injection ha with ha'
      rw [← ha']
      right
      right
      rfl
    · injection h with ha _
      exact Except.noConfusion ha
    · injection h with ha _
      exact Except.noConfusion ha
    · injection h with ha _
      injection ha with ha'
      rw [← ha']
      right
      right
      rfl

/-- C7: every started read loop has exactly one terminal outcome — the
emitted item sequence is some prefix without a close, followed by a single
close; when the loop is never cancelled the item just before the close is a
synthesized terminal event whose type is one of closed, unknown_error,
malformed_event_error, malformed_data_error; a cancelled loop closes with no
further event. -/
theorem watchRun_terminal (rdr : Rdr) (c : Option Nat) :
    ∃ pre : List Item, watchRun rdr c = pre ++ [Item.close] ∧ Item.close ∉ pre ∧
      (c = none → ∃ (pre2 : List Item) (e : Event), pre = pre2 ++ [Item.ev e] ∧
        (e.type = eventTypeClosed ∨ e.type = eventTypeUnknownError ∨
          e.type = eventTypeMalformedEventError ∨ e.type = eventTypeMalformedDataError)) := by
  induction rdr, c using watchRun.induct with
  | case1 rdr =>
      refine ⟨[], ?_, by simp, ?_⟩
      · rw [watchRun_eq_cancel]
        rfl
      · intro h
        exact absurd h (by simp)
  | case2 rdr cancel hc e snd h1 =>
      refine ⟨[Item.ev e], ?_, by simp, ?_⟩
      · rw [watchRun_eq_err1 hc h1]
        rfl
      · intro _
        refine ⟨[], e, by simp, ?_⟩
        rcases readLine_error_type h1 with h | h | h
        · exact Or.inl h
        · exact Or.inr (Or.inl h)
        · exact Or.inr (Or.inr (Or.inl h))
  | case3 rdr cancel hc typ rdr1 h1 e snd h2 =>
      refine ⟨[Item.ev e], ?_, by simp, ?_⟩
      · rw [watchRun_eq_err2 hc h1 h2]
        rfl
      · intro _
        refine ⟨[], e, by simp, ?_⟩
        rcases readLine_error_type h2 with h | h | h
        · exact Or.inl h
        · exact Or.inr (Or.inl h)
        · exact Or.inr (Or.inr (Or.inr h))
  | case4 rdr cancel hc typ rdr1 h1 dat rdr2 h2 ih =>
      rcases hr3 : readLine rdr2 [] eventTypeUnknownError with ⟨res, r3⟩
      cases res with
      | error e =>
          refine ⟨[Item.ev ⟨typ, dat⟩, Item.ev e], ?_, by simp, ?_⟩
          · rw [watchRun_eq_err3 hc h1 h2 hr3]
            rfl
          · intro _
            refine ⟨[Item.ev ⟨typ, dat⟩], e, rfl, ?_⟩
            rcases readLine_error_type hr3 with h | h | h
            · exact Or.inl h
            · exact Or.inr (Or.inl h)
            · exact Or.inr (Or.inl h)
      | ok bl =>
          obtain ⟨pre, hpre, hnc, hterm⟩ := ih bl r3 hr3
          refine ⟨Item.ev ⟨typ, dat⟩ :: pre, ?_, ?_, ?_⟩
          · rw [watchRun_eq_cons hc h1 h2 hr3, hpre]
            rfl
          · simp only [List.mem_cons, not_or]
            exact ⟨by simp, hnc⟩
          · intro hcn
            have hdc : decCancel cancel = none := by
              cases cancel with
              | none => rfl
              | some n => exact absurd hcn (by simp)
            obtain ⟨pre2, e, hpe, hty⟩ := hterm hdc
            refine ⟨Item.ev ⟨typ, dat⟩ :: pre2, e, ?_, hty⟩
            rw [hpe]
            rfl

/-- C7 witness: a concrete session whose stream ends immediately. -/
theorem watchRun_terminal_witness :
    ∃ pre : List Item, watchRun ⟨"event".toList, none⟩ none = pre ++ [Item.close] ∧
      Item.close ∉ pre ∧
      ((none : Option Nat) = none → ∃ (pre2 : List Item) (e : Event),
        pre = pre2 ++ [Item.ev e] ∧
        (e.type = eventTypeClosed ∨ e.type = eventTypeUnknownError ∨
          e.type = eventTypeMalformedEventError ∨ e.type = eventTypeMalformedDataError)) :=
  watchRun_terminal ⟨"event".toList, none⟩ none

end Firebase
